import Mathlib

/-!
Verification of `group_conv.py`: finite-group utilities over multiplication
(Cayley) tables and matrix sets.

Embedding conventions:
* A multiplication table of size n is a function `Fin n → Fin n → ℤ`
  (numpy integer array of shape [n, n]; entries may be arbitrary integers,
  as nothing in the code restricts them to `{0, …, n-1}`).
* A set of n matrices of shape [n, d, d2] is a function
  `Fin n → Fin d → Fin d2 → ℚ` (floating point idealized as rationals;
  the literal `1e-8` is idealized as `1 / 10^8`).
* Functions that raise `ValueError` are modelled with `Except String`,
  carrying the exact message text; the `assert` in
  `make_multiplication_table` is modelled by an `Option` wrapper.
-/

namespace GroupConv

/-- The test `np.all(table == np.arange(n), axis=1)` at row `i`:
row `i` is exactly `[0, 1, …, n-1]`. -/
def isIdentityRow (n : ℕ) (table : Fin n → Fin n → ℤ) (i : Fin n) : Prop :=
  ∀ j : Fin n, table i j = (j : ℤ)

instance (n : ℕ) (table : Fin n → Fin n → ℤ) (i : Fin n) :
    Decidable (isIdentityRow n table i) := by
  unfold isIdentityRow; infer_instance

/-- The row indices collected by
`np.nonzero(np.all(table == np.arange(n), axis=1))`, in increasing order. -/
def identityRows (n : ℕ) (table : Fin n → Fin n → ℤ) : List (Fin n) :=
  (List.finRange n).filter (fun i => decide (isIdentityRow n table i))

/-- The function `identity(table)`: the index of the identity element, or
`ValueError('No or multiple identities')` when the number of qualifying
rows is not exactly one. -/
def identity (n : ℕ) (table : Fin n → Fin n → ℤ) : Except String (Fin n) :=
  match identityRows n table with
  | [i] => Except.ok i
  | _ => Except.error "No or multiple identities"

/-- The `(i, j)` pairs found by `np.nonzero(table == e)`, in row-major
(lexicographic) order, exactly as numpy enumerates them. -/
def inversePairs (n : ℕ) (table : Fin n → Fin n → ℤ) (e : Fin n) :
    List (Fin n × Fin n) :=
  (List.finRange n).flatMap (fun i =>
    ((List.finRange n).filter (fun j => decide (table i j = (e : ℤ)))).map
      (fun j => (i, j)))

/-- The function `inverses(table)`: the column indices `j` of the pairs with
`table[i, j] == e`, after checking `len(i) == n` and `i == arange(n)`;
otherwise `ValueError('Every element does not have one inverse')`.
A failure inside `identity` propagates. -/
def inverses (n : ℕ) (table : Fin n → Fin n → ℤ) :
    Except String (List (Fin n)) :=
  match identity n table with
  | Except.error s => Except.error s
  | Except.ok e =>
    let pairs := inversePairs n table e
    if pairs.length = n ∧ pairs.map Prod.fst = List.finRange n then
      Except.ok (pairs.map Prod.snd)
    else
      Except.error "Every element does not have one inverse"

/-- The product grid `np.einsum('nij,mjk->nmik', matrices, matrices)` at `(a, b)`:
the matrix product `matrices[a] @ matrices[b]`. -/
def matProd (n d : ℕ) (matrices : Fin n → Fin d → Fin d → ℚ)
    (a b : Fin n) : Fin d → Fin d → ℚ :=
  fun i k => ∑ j : Fin d, matrices a i j * matrices b j k

/-- The match test of `make_multiplication_table`:
every entry of `|matrices[a] @ matrices[b] - matrices[k]|` is strictly
below `tol`. -/
def matchesAt (n d : ℕ) (matrices : Fin n → Fin d → Fin d → ℚ) (tol : ℚ)
    (k a b : Fin n) : Prop :=
  ∀ i j : Fin d, |matProd n d matrices a b i j - matrices k i j| < tol

instance (n d : ℕ) (matrices : Fin n → Fin d → Fin d → ℚ) (tol : ℚ)
    (k a b : Fin n) : Decidable (matchesAt n d matrices tol k a b) := by
  unfold matchesAt; infer_instance

/-- The core of `make_multiplication_table` on square matrices: the table
starts as zeros and, for the nonzero triples `(k, i, j)` enumerated in
lexicographic order, position `(i, j)` is assigned `k`; at a fixed
`(i, j)` later writes (larger `k`) overwrite earlier ones. -/
def makeTableCore (n d : ℕ) (matrices : Fin n → Fin d → Fin d → ℚ)
    (tol : ℚ) : Fin n → Fin n → ℕ :=
  fun a b =>
    ((List.finRange n).filter
        (fun k => decide (matchesAt n d matrices tol k a b))).foldl
      (fun _ k => Fin.val k) 0

/-- The default tolerance `tol=1e-08`, idealized as an exact rational. -/
def defaultTol : ℚ := 1 / 10 ^ 8

/-- The function `make_multiplication_table(matrices, tol)` on an input of shape
`[n, d, d2]`: the `assert d == d2` is modelled by returning `none` when
`d ≠ d2`, before any product is formed. -/
def make_multiplication_table (n d d2 : ℕ)
    (matrices : Fin n → Fin d → Fin d2 → ℚ) (tol : ℚ) :
    Option (Fin n → Fin n → ℕ) :=
  if h : d = d2 then
    some (makeTableCore n d (fun k i j => matrices k i (Fin.cast h j)) tol)
  else
    none

/-- The function `regular_representation(table)`: `reg_rep[g, x, h]` is `1` when
`table[g, h] = x` and `0` otherwise (numpy writes `reg_rep[g, gh, h] = 1`
over the full meshgrid, all other entries staying `0`). -/
def regular_representation (n : ℕ) (table : Fin n → Fin n → ℤ) :
    Fin n → Fin n → Fin n → ℚ :=
  fun g x h => if table g h = (x : ℤ) then 1 else 0

/-- Standard basis vector `e_x` of length `n`. -/
def basis (n : ℕ) (x : Fin n) : Fin n → ℚ :=
  fun i => if i = x then 1 else 0

/-- Matrix–vector product of an n×n matrix with a length-n vector. -/
def matVec (n : ℕ) (M : Fin n → Fin n → ℚ) (v : Fin n → ℚ) : Fin n → ℚ :=
  fun i => ∑ j : Fin n, M i j * v j

/-- The cyclic-group table of order n: `table[i, j] = (i + j) mod n`. -/
def cyclicTable (n : ℕ) : Fin n → Fin n → ℤ :=
  fun i j => (((i : ℕ) + (j : ℕ)) % n : ℕ)

instance {α : Type} [Fintype α] [DecidableEq α] (p : α → Prop)
    [DecidablePred p] : Decidable (∃! x, p x) :=
  decidable_of_iff (∃ x, p x ∧ ∀ y, p y → y = x) Iff.rfl

/-! Helper lemmas about lists, shared by several results below. -/

theorem flatMap_singleton_map {α β : Type} (l : List α) (f : α → β) :
    l.flatMap (fun x => [f x]) = l.map f := by
  induction l with
  | nil => rfl
  | cons a t ih =>
    simp only [List.flatMap_cons, List.map_cons, ih, List.singleton_append]

theorem filter_eq_singleton_of_unique {α : Type} {l : List α} {p : α → Bool}
    {j : α} (hnd : l.Nodup) (hmem : j ∈ l) (hj : p j = true)
    (huniq : ∀ x ∈ l, p x = true → x = j) : l.filter p = [j] := by
  induction l with
  | nil => cases hmem
  | cons a t ih =>
    rw [List.nodup_cons] at hnd
    cases hpa : p a with
    | true =>
      have ha : a = j := huniq a (List.mem_cons_self a t) hpa
      have ht : t.filter p = [] := by
        rw [List.filter_eq_nil_iff]
        intro x hx hpx
        have hxj : x = j := huniq x (List.mem_cons_of_mem a hx) hpx
        exact hnd.1 (by rwa [hxj, ← ha] at hx)
      rw [List.filter_cons_of_pos hpa, ht, ha]
    | false =>
      have hja : j ≠ a := fun h => by rw [h] at hj; rw [hj] at hpa; cases hpa
      have hjt : j ∈ t := by
        rcases List.mem_cons.mp hmem with h | h
        · exact absurd h hja
        · exact h
      rw [List.filter_cons_of_neg (by simp [hpa])]
      exact ih hnd.2 hjt (fun x hx hpx => huniq x (List.mem_cons_of_mem a hx) hpx)

theorem foldl_write_last {α β : Type} (g : α → β) :
    ∀ (l : List α) (init : β) (h : l ≠ []),
      l.foldl (fun _ k => g k) init = g (l.getLast h)
  | [a], _, _ => rfl
  | a :: b :: t, init, _ => by
    rw [List.foldl_cons, foldl_write_last g (b :: t) (g a) (by simp)]
    exact congrArg g (List.getLast_cons (by simp)).symm

theorem mem_le_getLast {α : Type} [Preorder α] :
    ∀ {l : List α}, l.Pairwise (· < ·) → ∀ x ∈ l, ∀ (h : l ≠ []),
      x ≤ l.getLast h
  | [], _, x, hx, _ => by cases hx
  | [a], _, x, hx, _ => by
    rcases List.mem_singleton.mp hx with rfl
    exact le_refl _
  | a :: b :: t, hp, x, hx, _ => by
    rw [List.getLast_cons (l := b :: t) (by simp)]
    rcases List.mem_cons.mp hx with rfl | hx'
    · exact le_of_lt ((List.pairwise_cons.mp hp).1 _
        (List.getLast_mem (l := b :: t) (by simp)))
    · exact mem_le_getLast (List.pairwise_cons.mp hp).2 x hx' (by simp)

/-! Basic characterisations of `identity`. -/

theorem mem_identityRows (n : ℕ) (table : Fin n → Fin n → ℤ) (i : Fin n) :
    i ∈ identityRows n table ↔ isIdentityRow n table i := by
  simp [identityRows, List.mem_filter, List.mem_finRange]

theorem identity_ok_iff (n : ℕ) (table : Fin n → Fin n → ℤ) (i : Fin n) :
    identity n table = Except.ok i ↔ identityRows n table = [i] := by
  unfold identity
  rcases identityRows n table with _ | ⟨a, _ | ⟨b, t⟩⟩ <;> simp

theorem identity_cases (n : ℕ) (table : Fin n → Fin n → ℤ) :
    (∃ i, identity n table = Except.ok i) ∨
      identity n table = Except.error "No or multiple identities" := by
  unfold identity
  rcases identityRows n table with _ | ⟨a, _ | ⟨b, t⟩⟩ <;> simp

theorem identity_ok_unique (n : ℕ) (table : Fin n → Fin n → ℤ) (i : Fin n) :
    identity n table = Except.ok i ↔
      (isIdentityRow n table i ∧
        ∀ i', isIdentityRow n table i' → i' = i) := by
  rw [identity_ok_iff]
  constructor
  · intro h
    have hm : ∀ x : Fin n, x ∈ identityRows n table ↔ x ∈ [i] := by
      intro x; rw [h]
    constructor
    · exact (mem_identityRows n table i).mp ((hm i).mpr (List.mem_singleton.mpr rfl))
    · intro i' hi'
      exact List.mem_singleton.mp ((hm i').mp ((mem_identityRows n table i').mpr hi'))
  · rintro ⟨hi, huniq⟩
    exact filter_eq_singleton_of_unique (List.nodup_finRange n)
      (List.mem_finRange i) (by simpa using hi)
      (fun x _ hx => huniq x (by simpa using hx))

/-! Characterisations of `inverses`. -/

theorem row_filter_eq (n : ℕ) (table : Fin n → Fin n → ℤ) (e : Fin n)
    (i j : Fin n) (hj : table i j = (e : ℤ))
    (huniq : ∀ j', table i j' = (e : ℤ) → j' = j) :
    (List.finRange n).filter (fun j' => decide (table i j' = (e : ℤ)))
      = [j] :=
  filter_eq_singleton_of_unique (List.nodup_finRange n)
    (List.mem_finRange j) (by simpa using hj)
    (fun x _ hx => huniq x (by simpa using hx))

theorem inversePairs_eq_map (n : ℕ) (table : Fin n → Fin n → ℤ) (e : Fin n)
    (invf : Fin n → Fin n)
    (hf : ∀ i, (List.finRange n).filter
        (fun j => decide (table i j = (e : ℤ))) = [invf i]) :
    inversePairs n table e
      = (List.finRange n).map (fun i => (i, invf i)) := by
  have h1 : (fun i : Fin n =>
      ((List.finRange n).filter
          (fun j => decide (table i j = (e : ℤ)))).map (fun j => (i, j)))
      = fun i => [(i, invf i)] := by
    funext i
    rw [hf i]
    rfl
  rw [inversePairs, h1, flatMap_singleton_map]

theorem inverses_ok_of_filter (n : ℕ) (table : Fin n → Fin n → ℤ)
    (e : Fin n) (he : identity n table = Except.ok e)
    (invf : Fin n → Fin n)
    (hf : ∀ i, (List.finRange n).filter
        (fun j => decide (table i j = (e : ℤ))) = [invf i]) :
    inverses n table = Except.ok ((List.finRange n).map invf) := by
  have hp := inversePairs_eq_map n table e invf hf
  have hlen : (inversePairs n table e).length = n := by
    rw [hp, List.length_map, List.length_finRange]
  have hfst : (inversePairs n table e).map Prod.fst = List.finRange n := by
    rw [hp, List.map_map]
    exact List.map_id _
  have hsnd : (inversePairs n table e).map Prod.snd
      = (List.finRange n).map invf := by
    rw [hp, List.map_map]
    rfl
  unfold inverses
  rw [he]
  simp only [hlen, hfst, and_self, if_true, hsnd]

theorem inverses_error_of_cond (n : ℕ) (table : Fin n → Fin n → ℤ)
    (e : Fin n) (he : identity n table = Except.ok e)
    (hcond : ¬((inversePairs n table e).length = n ∧
      (inversePairs n table e).map Prod.fst = List.finRange n)) :
    inverses n table
      = Except.error "Every element does not have one inverse" := by
  unfold inverses
  rw [he]
  simp only [if_neg hcond]

/-! Characterisations of `make_multiplication_table`. -/

theorem make_multiplication_table_square (n d : ℕ)
    (matrices : Fin n → Fin d → Fin d → ℚ) (tol : ℚ) :
    make_multiplication_table n d d matrices tol
      = some (makeTableCore n d matrices tol) := by
  unfold make_multiplication_table
  rw [dif_pos rfl]
  rfl

theorem makeTableCore_of_max (n d : ℕ)
    (matrices : Fin n → Fin d → Fin d → ℚ) (tol : ℚ) (a b k0 : Fin n)
    (hk0 : matchesAt n d matrices tol k0 a b)
    (hmax : ∀ k, matchesAt n d matrices tol k a b → k ≤ k0) :
    makeTableCore n d matrices tol a b = (k0 : ℕ) := by
  have hmem : k0 ∈ (List.finRange n).filter
      (fun k => decide (matchesAt n d matrices tol k a b)) :=
    List.mem_filter.mpr ⟨List.mem_finRange k0, by simpa using hk0⟩
  have hne : (List.finRange n).filter
      (fun k => decide (matchesAt n d matrices tol k a b)) ≠ [] :=
    List.ne_nil_of_mem hmem
  have hs : ((List.finRange n).filter
      (fun k => decide (matchesAt n d matrices tol k a b))).Pairwise
        (· < ·) :=
    (List.pairwise_lt_finRange n).filter _
  unfold makeTableCore
  rw [foldl_write_last (fun k : Fin n => Fin.val k) _ 0 hne]
  have hlast_mem := List.getLast_mem hne
  have h1 : ((List.finRange n).filter
      (fun k => decide (matchesAt n d matrices tol k a b))).getLast hne
        ≤ k0 :=
    hmax _ (by simpa using (List.mem_filter.mp hlast_mem).2)
  have h2 : k0 ≤ ((List.finRange n).filter
      (fun k => decide (matchesAt n d matrices tol k a b))).getLast hne :=
    mem_le_getLast hs k0 hmem hne
  exact congrArg Fin.val (le_antisymm h1 h2)

theorem makeTableCore_of_none (n d : ℕ)
    (matrices : Fin n → Fin d → Fin d → ℚ) (tol : ℚ) (a b : Fin n)
    (hnone : ∀ k, ¬ matchesAt n d matrices tol k a b) :
    makeTableCore n d matrices tol a b = 0 := by
  have hfil : (List.finRange n).filter
      (fun k => decide (matchesAt n d matrices tol k a b)) = [] := by
    rw [List.filter_eq_nil_iff]
    intro k _ hk
    exact hnone k (by simpa using hk)
  unfold makeTableCore
  rw [hfil]
  rfl

/-! Claim theorems. -/

/-- C2: for every n×n integer table, `identity` returns the unique index
whose row is `[0, …, n-1]` exactly when exactly one such row exists, and
fails with the "No or multiple identities" error when zero or more than
one row qualifies; in particular a table whose two rows both equal
`[0, 1]` fails that way. -/
theorem identity_spec (n : ℕ) (table : Fin n → Fin n → ℤ) :
    (∀ i : Fin n, identity n table = Except.ok i ↔
      (isIdentityRow n table i ∧
        ∀ i', isIdentityRow n table i' → i' = i)) ∧
    (identity n table = Except.error "No or multiple identities" ↔
      ¬ ∃ i, isIdentityRow n table i ∧
        ∀ i', isIdentityRow n table i' → i' = i) ∧
    identity 2 (fun _ j => (j : ℤ))
      = Except.error "No or multiple identities" := by
  refine ⟨fun i => identity_ok_unique n table i, ⟨?_, ?_⟩, by rfl⟩
  · rintro herr ⟨i, hi⟩
    rw [(identity_ok_unique n table i).mpr hi] at herr
    cases herr
  · intro hno
    rcases identity_cases n table with ⟨i, hok⟩ | herr
    · exact absurd ⟨i, (identity_ok_unique n table i).mp hok⟩ hno
    · exact herr

/-- C10: `make_multiplication_table` rejects non-square input, the
`assert d == d2` failing before any product is formed. -/
theorem make_multiplication_table_nonsquare (n d d2 : ℕ)
    (matrices : Fin n → Fin d → Fin d2 → ℚ) (tol : ℚ) (hne : d ≠ d2) :
    make_multiplication_table n d d2 matrices tol = none := by
  unfold make_multiplication_table
  rw [dif_neg hne]

/-- Witness for C10 at `n = 3`, `d = 1`, `d2 = 2`. -/
theorem make_multiplication_table_nonsquare_witness :
    (1 : ℕ) ≠ 2 ∧
      make_multiplication_table 3 1 2 (fun _ _ _ => 0) defaultTol
        = none :=
  ⟨by decide,
    make_multiplication_table_nonsquare 3 1 2 (fun _ _ _ => 0) defaultTol
      (by decide)⟩

/-- C5: on a non-closed set, `make_multiplication_table` returns normally
and any pair `(a, b)` with no matching candidate keeps the default table
entry `0`. -/
theorem make_multiplication_table_nonclosed (n d : ℕ)
    (matrices : Fin n → Fin d → Fin d → ℚ) (tol : ℚ) (a b : Fin n)
    (hnone : ∀ k, ¬ matchesAt n d matrices tol k a b) :
    ∃ T, make_multiplication_table n d d matrices tol = some T ∧
      T a b = 0 :=
  ⟨makeTableCore n d matrices tol,
    make_multiplication_table_square n d matrices tol,
    makeTableCore_of_none n d matrices tol a b hnone⟩

/-- Witness for C5: the 1×1 matrices `[[2]], [[3]]` are not closed
(`2·2 = 4` matches neither), and the `(0, 0)` entry stays `0`. -/
theorem make_multiplication_table_nonclosed_witness :
    (∀ k : Fin 2,
      ¬ matchesAt 2 1 (fun k _ _ => (k : ℚ) + 2) defaultTol k 0 0) ∧
    ∃ T, make_multiplication_table 2 1 1 (fun k _ _ => (k : ℚ) + 2)
        defaultTol = some T ∧ T 0 0 = 0 := by
  have hnone : ∀ k : Fin 2,
      ¬ matchesAt 2 1 (fun k _ _ => (k : ℚ) + 2) defaultTol k 0 0 := by
    intro k
    fin_cases k <;> intro h <;> have h0 := h 0 0 <;>
      simp only [matProd, Fin.sum_univ_one] at h0 <;>
      norm_num [defaultTol] at h0
  exact ⟨hnone,
    make_multiplication_table_nonclosed 2 1 (fun k _ _ => (k : ℚ) + 2)
      defaultTol 0 0 hnone⟩

/-- C7: when several candidates match at `(a, b)`, the table entry is the
last-written match, i.e. the largest matching index `k0`. -/
theorem make_multiplication_table_last_match (n d : ℕ)
    (matrices : Fin n → Fin d → Fin d → ℚ) (tol : ℚ) (a b k0 : Fin n)
    (hk0 : matchesAt n d matrices tol k0 a b)
    (hmax : ∀ k, matchesAt n d matrices tol k a b → k ≤ k0) :
    ∃ T, make_multiplication_table n d d matrices tol = some T ∧
      T a b = (k0 : ℕ) :=
  ⟨makeTableCore n d matrices tol,
    make_multiplication_table_square n d matrices tol,
    makeTableCore_of_max n d matrices tol a b k0 hk0 hmax⟩

/-- Witness for C7: two identical 1×1 matrices `[[1]]` with tolerance 1;
both candidates match at `(0, 0)` and the entry is the larger index 1. -/
theorem make_multiplication_table_last_match_witness :
    matchesAt 2 1 (fun _ _ _ => 1) 1 1 0 0 ∧
    (∀ k : Fin 2, matchesAt 2 1 (fun _ _ _ => 1) 1 k 0 0 → k ≤ 1) ∧
    ∃ T, make_multiplication_table 2 1 1 (fun _ _ _ => 1) 1 = some T ∧
      T 0 0 = 1 := by
  have hk0 : matchesAt 2 1 (fun _ _ _ => 1) 1 1 0 0 := by
    intro i j
    simp only [matProd, Fin.sum_univ_one]
    norm_num
  have hmax : ∀ k : Fin 2, matchesAt 2 1 (fun _ _ _ => 1) 1 k 0 0 →
      k ≤ 1 := by
    intro k _
    exact Fin.le_def.mpr (by omega)
  exact ⟨hk0, hmax,
    make_multiplication_table_last_match 2 1 (fun _ _ _ => 1) 1 0 0 1
      hk0 hmax⟩

/-- C1: on a set with a unique tolerance-match for every pair, the table
satisfies `T a b = k` iff `matrices[a] @ matrices[b]` matches
`matrices[k]` elementwise strictly within `tol`; the default tolerance is
the idealisation of `1e-8`. -/
theorem make_multiplication_table_spec (n d : ℕ)
    (matrices : Fin n → Fin d → Fin d → ℚ) (tol : ℚ)
    (huniq : ∀ a b : Fin n, ∃! k : Fin n,
      matchesAt n d matrices tol k a b) :
    defaultTol = 1 / 100000000 ∧
    ∃ T, make_multiplication_table n d d matrices tol = some T ∧
      ∀ a b k : Fin n,
        (T a b = (k : ℕ) ↔ matchesAt n d matrices tol k a b) := by
  refine ⟨by norm_num [defaultTol], makeTableCore n d matrices tol,
    make_multiplication_table_square n d matrices tol, fun a b k => ?_⟩
  obtain ⟨k0, hk0, huk⟩ := huniq a b
  have hmax : ∀ k', matchesAt n d matrices tol k' a b → k' ≤ k0 :=
    fun k' h => le_of_eq (huk k' h)
  have hT := makeTableCore_of_max n d matrices tol a b k0 hk0 hmax
  constructor
  · intro h
    have hval : (k : ℕ) = (k0 : ℕ) := by rw [← h, hT]
    rw [Fin.val_injective hval]
    exact hk0
  · intro h
    rw [hT, huk k h]

/-- Witness for C1: the singleton set containing the 1×1 identity matrix
with the default tolerance. -/
theorem make_multiplication_table_spec_witness :
    (∀ a b : Fin 1, ∃! k : Fin 1,
      matchesAt 1 1 (fun _ _ _ => 1) defaultTol k a b) ∧
    (defaultTol = 1 / 100000000 ∧
      ∃ T, make_multiplication_table 1 1 1 (fun _ _ _ => 1) defaultTol
          = some T ∧
        ∀ a b k : Fin 1,
          (T a b = (k : ℕ) ↔
            matchesAt 1 1 (fun _ _ _ => 1) defaultTol k a b)) := by
  have huniq : ∀ a b : Fin 1, ∃! k : Fin 1,
      matchesAt 1 1 (fun _ _ _ => 1) defaultTol k a b := by
    intro a b
    refine ⟨0, fun i j => ?_, fun y _ => Subsingleton.elim y 0⟩
    simp only [matProd, Fin.sum_univ_one]
    norm_num [defaultTol]
  exact ⟨huniq,
    make_multiplication_table_spec 1 1 (fun _ _ _ => 1) defaultTol huniq⟩

/-- C3: on a table whose identity is `e`, if every row has exactly one
column holding `e` then `inverses` returns the length-n list of those
columns, each `invf i` the unique inverse column of row `i`; and whenever
the `(row, column)` pairs fail the count-n / rows-are-`[0, …, n-1]` check,
`inverses` fails with the "Every element does not have one inverse"
error. -/
theorem inverses_spec (n : ℕ) (table : Fin n → Fin n → ℤ) (e : Fin n)
    (he : identity n table = Except.ok e) :
    ((∀ i : Fin n, ∃! j : Fin n, table i j = (e : ℤ)) →
      ∃ invf : Fin n → Fin n,
        inverses n table = Except.ok ((List.finRange n).map invf) ∧
        ∀ i : Fin n, table i (invf i) = (e : ℤ) ∧
          ∀ j : Fin n, table i j = (e : ℤ) → j = invf i) ∧
    (¬((inversePairs n table e).length = n ∧
        (inversePairs n table e).map Prod.fst = List.finRange n) →
      inverses n table
        = Except.error "Every element does not have one inverse") := by
  constructor
  · intro hu
    choose invf hinv huniq using fun i => hu i
    exact ⟨invf,
      inverses_ok_of_filter n table e he invf
        (fun i => row_filter_eq n table e i (invf i) (hinv i) (huniq i)),
      fun i => ⟨hinv i, huniq i⟩⟩
  · exact inverses_error_of_cond n table e he

/-- Witness for C3 at the cyclic table of order 3, whose identity is 0. -/
theorem inverses_spec_witness :
    ((∀ i : Fin 3, ∃! j : Fin 3, cyclicTable 3 i j = ((0 : Fin 3) : ℤ)) →
      ∃ invf : Fin 3 → Fin 3,
        inverses 3 (cyclicTable 3)
          = Except.ok ((List.finRange 3).map invf) ∧
        ∀ i : Fin 3, cyclicTable 3 i (invf i) = ((0 : Fin 3) : ℤ) ∧
          ∀ j : Fin 3, cyclicTable 3 i j = ((0 : Fin 3) : ℤ) →
            j = invf i) ∧
    (¬((inversePairs 3 (cyclicTable 3) (0 : Fin 3)).length = 3 ∧
        (inversePairs 3 (cyclicTable 3) (0 : Fin 3)).map Prod.fst
          = List.finRange 3) →
      inverses 3 (cyclicTable 3)
        = Except.error "Every element does not have one inverse") :=
  inverses_spec 3 (cyclicTable 3) 0 (by rfl)

/-- C6: on a valid group table (every row and column a permutation, a
unique identity), the inverse list is a permutation of `{0, …, n-1}`:
it has no duplicates and every index occurs. -/
theorem inverses_perm_of_valid (n : ℕ) (table : Fin n → Fin n → ℤ)
    (e : Fin n) (he : identity n table = Except.ok e)
    (hrow : ∀ i k : Fin n, ∃! j : Fin n, table i j = (k : ℤ))
    (hcol : ∀ j k : Fin n, ∃! i : Fin n, table i j = (k : ℤ)) :
    ∃ js : List (Fin n), inverses n table = Except.ok js ∧
      js.Nodup ∧ ∀ k : Fin n, k ∈ js := by
  choose invf hinv huniq using fun i => hrow i e
  have hok : inverses n table
      = Except.ok ((List.finRange n).map invf) :=
    inverses_ok_of_filter n table e he invf
      (fun i => row_filter_eq n table e i (invf i) (hinv i) (huniq i))
  have hinj : Function.Injective invf := by
    intro i1 i2 h12
    have h2 : table i2 (invf i1) = (e : ℤ) := by rw [h12]; exact hinv i2
    exact (hcol (invf i1) e).unique (hinv i1) h2
  have hsurj : Function.Surjective invf :=
    (Finite.injective_iff_surjective).mp hinj
  refine ⟨(List.finRange n).map invf, hok,
    (List.nodup_finRange n).map hinj, fun k => ?_⟩
  obtain ⟨i, rfl⟩ := hsurj k
  exact List.mem_map.mpr ⟨i, List.mem_finRange i, rfl⟩

/-- Witness for C6 at the cyclic table of order 3. -/
theorem inverses_perm_of_valid_witness :
    (∀ i k : Fin 3, ∃! j : Fin 3, cyclicTable 3 i j = (k : ℤ)) ∧
    ∃ js : List (Fin 3), inverses 3 (cyclicTable 3) = Except.ok js ∧
      js.Nodup ∧ ∀ k : Fin 3, k ∈ js := by
  have hrow : ∀ i k : Fin 3, ∃! j : Fin 3, cyclicTable 3 i j = (k : ℤ) :=
    by decide
  have hcol : ∀ j k : Fin 3, ∃! i : Fin 3, cyclicTable 3 i j = (k : ℤ) :=
    by decide
  exact ⟨hrow,
    inverses_perm_of_valid 3 (cyclicTable 3) 0 (by rfl) hrow hcol⟩

/-- C4: on a table with in-range entries, each slice `D[g]` of the
regular representation has a `1` exactly at `(table[g,h], h)` in column
`h`, zeros elsewhere in that column, and maps the basis vector `e_h` to
`e_{table[g,h]}`. -/
theorem regular_representation_spec (n : ℕ) (table : Fin n → Fin n → ℤ)
    (hvalid : ∀ g h : Fin n, ∃ k : Fin n, table g h = (k : ℤ)) :
    ∀ g h : Fin n, ∃ k : Fin n, table g h = (k : ℤ) ∧
      regular_representation n table g k h = 1 ∧
      (∀ x : Fin n, x ≠ k → regular_representation n table g x h = 0) ∧
      matVec n (regular_representation n table g) (basis n h)
        = basis n k := by
  intro g h
  obtain ⟨k, hk⟩ := hvalid g h
  refine ⟨k, hk, ?_, ?_, ?_⟩
  · unfold regular_representation
    rw [if_pos hk]
  · intro x hx
    unfold regular_representation
    have hne : ¬ (table g h = (x : ℤ)) := by
      rw [hk]
      exact fun hcast => hx (Fin.val_injective (by exact_mod_cast hcast)).symm
    rw [if_neg hne]
  · funext x
    have hsum : matVec n (regular_representation n table g) (basis n h) x
        = regular_representation n table g x h := by
      unfold matVec basis
      rw [Finset.sum_congr rfl
        (fun j _ => by rw [mul_ite, mul_one, mul_zero])]
      rw [Finset.sum_ite_eq' Finset.univ h
        (fun j => regular_representation n table g x j)]
      simp
    rw [hsum]
    unfold regular_representation basis
    rw [hk]
    by_cases hxk : x = k
    · subst hxk
      rw [if_pos rfl, if_pos rfl]
    · have hne : ¬ ((k : ℤ) = (x : ℤ)) :=
        fun hcast => hxk (Fin.val_injective (by exact_mod_cast hcast)).symm
      rw [if_neg hne, if_neg hxk]

/-- Witness for C4 at the cyclic table of order 3. -/
theorem regular_representation_spec_witness :
    (∀ g h : Fin 3, ∃ k : Fin 3, cyclicTable 3 g h = (k : ℤ)) ∧
    ∀ g h : Fin 3, ∃ k : Fin 3, cyclicTable 3 g h = (k : ℤ) ∧
      regular_representation 3 (cyclicTable 3) g k h = 1 ∧
      (∀ x : Fin 3, x ≠ k →
        regular_representation 3 (cyclicTable 3) g x h = 0) ∧
      matVec 3 (regular_representation 3 (cyclicTable 3) g) (basis 3 h)
        = basis 3 k := by
  have hvalid : ∀ g h : Fin 3, ∃ k : Fin 3, cyclicTable 3 g h = (k : ℤ) :=
    by decide
  exact ⟨hvalid, regular_representation_spec 3 (cyclicTable 3) hvalid⟩

/-- C8: on a table whose rows are permutations (with in-range entries),
every slice `D[g]` is a 0/1 matrix with exactly one `1` in each row and
each column. -/
theorem regular_representation_perm (n : ℕ) (table : Fin n → Fin n → ℤ)
    (hrow : ∀ g x : Fin n, ∃! h : Fin n, table g h = (x : ℤ))
    (hvalid : ∀ g h : Fin n, ∃ k : Fin n, table g h = (k : ℤ)) :
    ∀ g : Fin n,
      (∀ x h : Fin n, regular_representation n table g x h = 0 ∨
        regular_representation n table g x h = 1) ∧
      (∀ x : Fin n, ∃! h : Fin n,
        regular_representation n table g x h = 1) ∧
      (∀ h : Fin n, ∃! x : Fin n,
        regular_representation n table g x h = 1) := by
  intro g
  have hval : ∀ x h : Fin n,
      (regular_representation n table g x h = 1 ↔
        table g h = (x : ℤ)) := by
    intro x h
    unfold regular_representation
    by_cases hc : table g h = (x : ℤ)
    · rw [if_pos hc]
      simp [hc]
    · rw [if_neg hc]
      simp [hc]
  refine ⟨?_, ?_, ?_⟩
  · intro x h
    unfold regular_representation
    by_cases hc : table g h = (x : ℤ)
    · right
      rw [if_pos hc]
    · left
      rw [if_neg hc]
  · intro x
    obtain ⟨h0, hh0, hu⟩ := hrow g x
    exact ⟨h0, (hval x h0).mpr hh0, fun y hy => hu y ((hval x y).mp hy)⟩
  · intro h
    obtain ⟨k, hk⟩ := hvalid g h
    refine ⟨k, (hval k h).mpr hk, fun y hy => ?_⟩
    have hy' := (hval y h).mp hy
    have heq : ((k : ℕ) : ℤ) = ((y : ℕ) : ℤ) := hk.symm.trans hy'
    exact (Fin.val_injective (by exact_mod_cast heq)).symm

/-- Witness for C8 at the cyclic table of order 3. -/
theorem regular_representation_perm_witness :
    (∀ g x : Fin 3, ∃! h : Fin 3, cyclicTable 3 g h = (x : ℤ)) ∧
    ∀ g : Fin 3,
      (∀ x h : Fin 3, regular_representation 3 (cyclicTable 3) g x h = 0 ∨
        regular_representation 3 (cyclicTable 3) g x h = 1) ∧
      (∀ x : Fin 3, ∃! h : Fin 3,
        regular_representation 3 (cyclicTable 3) g x h = 1) ∧
      (∀ h : Fin 3, ∃! x : Fin 3,
        regular_representation 3 (cyclicTable 3) g x h = 1) := by
  have hrow : ∀ g x : Fin 3, ∃! h : Fin 3, cyclicTable 3 g h = (x : ℤ) :=
    by decide
  have hvalid : ∀ g h : Fin 3, ∃ k : Fin 3, cyclicTable 3 g h = (k : ℤ) :=
    by decide
  exact ⟨hrow, regular_representation_perm 3 (cyclicTable 3) hrow hvalid⟩

/-! The cyclic table of order n. -/

theorem add_mod_eq_zero_iff (n i j : ℕ) (hn : 0 < n) (hi : i < n)
    (hj : j < n) : (i + j) % n = 0 ↔ j = (n - i) % n := by
  rcases Nat.eq_zero_or_pos i with rfl | hipos
  · rw [Nat.sub_zero, Nat.mod_self]
    constructor
    · intro h
      rwa [Nat.zero_add, Nat.mod_eq_of_lt hj] at h
    · rintro rfl
      simp
  · rw [Nat.mod_eq_of_lt (show n - i < n by omega)]
    constructor
    · intro h
      obtain ⟨c, hc⟩ := Nat.dvd_of_mod_eq_zero h
      have hc2 : c < 2 := by
        by_contra hge
        push_neg at hge
        have h2 : n * 2 ≤ n * c := Nat.mul_le_mul_left n hge
        omega
      interval_cases c <;> omega
    · rintro rfl
      have hin : i + (n - i) = n := by omega
      rw [hin, Nat.mod_self]

theorem cyclicTable_id_row (n : ℕ) (hn : 0 < n) (i : Fin n) :
    isIdentityRow n (cyclicTable n) i ↔ i = ⟨0, hn⟩ := by
  constructor
  · intro h
    have h0 := h ⟨0, hn⟩
    unfold cyclicTable at h0
    have h0' : ((i : ℕ) + 0) % n = 0 := by exact_mod_cast h0
    rw [Nat.add_zero, Nat.mod_eq_of_lt i.isLt] at h0'
    exact Fin.ext h0'
  · rintro rfl
    intro j
    unfold cyclicTable
    have hj : ((0 : ℕ) + (j : ℕ)) % n = (j : ℕ) := by
      rw [Nat.zero_add, Nat.mod_eq_of_lt j.isLt]
    exact_mod_cast congrArg (Nat.cast : ℕ → ℤ) hj

theorem cyclicTable_identity (n : ℕ) (hn : 0 < n) :
    identity n (cyclicTable n) = Except.ok ⟨0, hn⟩ := by
  rw [identity_ok_unique]
  exact ⟨(cyclicTable_id_row n hn ⟨0, hn⟩).mpr rfl,
    fun i' h => (cyclicTable_id_row n hn i').mp h⟩

theorem cyclicTable_inv_col (n : ℕ) (hn : 0 < n) (i j : Fin n) :
    cyclicTable n i j = (((⟨0, hn⟩ : Fin n) : ℕ) : ℤ) ↔
      j = ⟨(n - (i : ℕ)) % n, Nat.mod_lt _ hn⟩ := by
  have h1 : cyclicTable n i j = (((⟨0, hn⟩ : Fin n) : ℕ) : ℤ) ↔
      ((i : ℕ) + (j : ℕ)) % n = 0 := by
    unfold cyclicTable
    constructor
    · intro h
      exact_mod_cast h
    · intro h
      exact_mod_cast h
  rw [h1, Fin.ext_iff]
  exact add_mod_eq_zero_iff n i j hn i.isLt j.isLt

theorem cyclicTable_inverses (n : ℕ) (hn : 0 < n) :
    inverses n (cyclicTable n) = Except.ok ((List.finRange n).map
      (fun i => ⟨(n - (i : ℕ)) % n, Nat.mod_lt _ hn⟩)) := by
  apply inverses_ok_of_filter n (cyclicTable n) ⟨0, hn⟩
    (cyclicTable_identity n hn)
  intro i
  exact row_filter_eq n (cyclicTable n) ⟨0, hn⟩ i _
    ((cyclicTable_inv_col n hn i _).mpr rfl)
    (fun j' h => (cyclicTable_inv_col n hn i j').mp h)

/-- C9: for the cyclic table of any order n ≥ 1, `identity` returns 0 and
`inverses` returns the list whose i-th entry is `(n - i) mod n`. -/
theorem cyclic_table_spec (n : ℕ) (hn : 0 < n) :
    identity n (cyclicTable n) = Except.ok ⟨0, hn⟩ ∧
    inverses n (cyclicTable n) = Except.ok ((List.finRange n).map
      (fun i => ⟨(n - (i : ℕ)) % n, Nat.mod_lt _ hn⟩)) :=
  ⟨cyclicTable_identity n hn, cyclicTable_inverses n hn⟩

/-- Witness for C9 at the trivial group n = 1, where `identity` returns 0
and `inverses` returns `[0]`. -/
theorem cyclic_table_spec_witness :
    0 < 1 ∧
    (identity 1 (cyclicTable 1) = Except.ok ⟨0, Nat.one_pos⟩ ∧
      inverses 1 (cyclicTable 1) = Except.ok ((List.finRange 1).map
        (fun i => ⟨(1 - (i : ℕ)) % 1, Nat.mod_lt _ Nat.one_pos⟩))) :=
  ⟨Nat.one_pos, cyclic_table_spec 1 Nat.one_pos⟩

end GroupConv
